import Mathlib

/-!
Verification development for the Horse Health Record Interpreter service
(`bot.py`).  The service has two pure components:

* `clean_response`: a sequence of `re.sub` rewrites that strips markdown
  from the model reply.  Each rewrite is embedded as a left-to-right
  scanner over `List Char`; the scanners take a fuel argument that is
  decremented once per consumed character, and the public wrappers pass
  `l.length` as fuel, which is always sufficient because every step
  consumes at least one character.
* `chat`: the `/api/chat` handler, embedded up to the external model call
  as a pure function from the parsed request to either the 400 rejection
  or the assembled message list.

Strings are modelled as `List Char`; Python string falsiness is emptiness
of the list, `in` is substring containment, and the regex classes `\s`
and `.` are modelled over the ASCII whitespace characters they match.
-/

namespace HorseHealth

/-- ASCII whitespace, the characters matched by the regex class `\s` and
stripped by `str.strip()` on the inputs in scope. -/
def isSpaceB (c : Char) : Bool :=
  (c == ' ') || (c == '\t') || (c == '\n') || (c == '\r') ||
    (c == '\x0b') || (c == '\x0c')

/-- The backtick character (code point 96). -/
def tick : Char := Char.ofNat 96

/-- Shortest-match search for a single-character delimiter `d`, as used by
the non-greedy group in `\*(.*?)\*` / `_(.*?)_`: returns the characters
before the first `d` together with the remainder after it, failing on a
newline (`.` does not match a newline) or at the end of input. -/
def findClose1 (d : Char) : List Char → Option (List Char × List Char)
  | [] => none
  | c :: rest =>
    if c = d then some ([], rest)
    else if c = '\n' then none
    else (findClose1 d rest).map (fun p => (c :: p.1, p.2))

/-- `re.sub(r'\*(.*?)\*', r'\1', _)` (and the `_` variant): scan left to
right; at a delimiter try the shortest newline-free close; on a match emit
the inner text and continue after the match, otherwise advance one
character, as `re.sub` does. -/
def sub1F (d : Char) : Nat → List Char → List Char
  | 0, l => l
  | _ + 1, [] => []
  | fuel + 1, c :: rest =>
    if c = d then
      match findClose1 d rest with
      | some (inner, rest2) => inner ++ sub1F d fuel rest2
      | none => c :: sub1F d fuel rest
    else c :: sub1F d fuel rest

/-- Shortest-match search for a doubled delimiter `dd`, as used by the
non-greedy group in `\*\*(.*?)\*\*` / `__(.*?)__`: returns the characters
before the first adjacent `dd` pair together with the remainder after it,
failing on a newline or at the end of input. -/
def findClose2 (d : Char) : List Char → Option (List Char × List Char)
  | c1 :: c2 :: rest =>
    if c1 = d ∧ c2 = d then some ([], rest)
    else if c1 = '\n' then none
    else (findClose2 d (c2 :: rest)).map (fun p => (c1 :: p.1, p.2))
  | _ => none

/-- `re.sub(r'\*\*(.*?)\*\*', r'\1', _)` (and the `__` variant). -/
def sub2F (d : Char) : Nat → List Char → List Char
  | 0, l => l
  | fuel + 1, c1 :: c2 :: rest =>
    if c1 = d ∧ c2 = d then
      match findClose2 d rest with
      | some (inner, rest2) => inner ++ sub2F d fuel rest2
      | none => c1 :: sub2F d fuel (c2 :: rest)
    else c1 :: sub2F d fuel (c2 :: rest)
  | _ + 1, l => l

/-- `re.sub(r'^+\s*', ..)` with the header pattern `^#+\s*` and
`re.MULTILINE`: at the start of the input or right after a newline, a run
of `#` and the greedy whitespace after it (which may span newlines) is
deleted; the position after the deleted region is again a line start
exactly when the last whitespace character consumed was a newline. -/
def hdrF : Nat → Bool → List Char → List Char
  | 0, _, l => l
  | _ + 1, _, [] => []
  | fuel + 1, atLS, c :: rest =>
    if atLS = true ∧ c = '#' then
      hdrF fuel
        (((rest.dropWhile (fun x => x == '#')).takeWhile isSpaceB).getLast? == some '\n')
        ((rest.dropWhile (fun x => x == '#')).dropWhile isSpaceB)
    else c :: hdrF fuel (c == '\n') rest

/-- The wrapper for the header rewrite; the start of the string is a line
start. -/
def subHeaders (l : List Char) : List Char := hdrF l.length true l

/-- Search for the first triple-backtick fence, returning the remainder
after it; `[\s\S]*?` matches any characters, so nothing stops the scan
before the end of input. -/
def findFence : List Char → Option (List Char)
  | c1 :: c2 :: c3 :: rest =>
    if c1 = tick ∧ c2 = tick ∧ c3 = tick then some rest
    else findFence (c2 :: c3 :: rest)
  | _ => none

/-- `re.sub(r'~~~[\s\S]*?~~~', '', _)` with `~~~` standing for the triple
backtick: a fenced block and its contents are removed entirely. -/
def fenF : Nat → List Char → List Char
  | 0, l => l
  | fuel + 1, c1 :: c2 :: c3 :: rest =>
    if c1 = tick ∧ c2 = tick ∧ c3 = tick then
      match findFence rest with
      | some rest2 => fenF fuel rest2
      | none => c1 :: fenF fuel (c2 :: c3 :: rest)
    else c1 :: fenF fuel (c2 :: c3 :: rest)
  | _ + 1, l => l

/-- Split at the first occurrence of `d`: the characters before it and the
remainder after it.  Models the greedy classes `[^X]+` followed by `X`,
which cannot pass over `X` and therefore stop at its first occurrence. -/
def splitAtChar (d : Char) : List Char → Option (List Char × List Char)
  | [] => none
  | c :: rest =>
    if c = d then some ([], rest)
    else (splitAtChar d rest).map (fun p => (c :: p.1, p.2))

/-- The inline-code rewrite, `` re.sub(r'X([^X]+)X', r'\1', _) `` with `X`
the backtick: a backtick, a nonempty backtick-free span (newlines
allowed), and a closing backtick are replaced by the span. -/
def tickF : Nat → List Char → List Char
  | 0, l => l
  | _ + 1, [] => []
  | fuel + 1, c :: rest =>
    if c = tick then
      match rest with
      | [] => [c]
      | c2 :: _ =>
        if c2 = tick then c :: tickF fuel rest
        else
          match splitAtChar tick rest with
          | some (inner, rest2) => inner ++ tickF fuel rest2
          | none => c :: tickF fuel rest
    else c :: tickF fuel rest

/-- The link rewrite `re.sub(r'\[([^\]]+)\]\([^\)]+\)', r'\1', _)`: a
bracketed nonempty label immediately followed by a parenthesised nonempty
target collapses to the label. -/
def linkF : Nat → List Char → List Char
  | 0, l => l
  | _ + 1, [] => []
  | fuel + 1, c :: rest =>
    if c = '[' then
      match splitAtChar ']' rest with
      | some (label, rest1) =>
        if label ≠ [] then
          match rest1 with
          | '(' :: rest2 =>
            match splitAtChar ')' rest2 with
            | some (url, rest3) =>
              if url ≠ [] then label ++ linkF fuel rest3
              else '[' :: linkF fuel rest
            | none => '[' :: linkF fuel rest
          | _ => '[' :: linkF fuel rest
        else '[' :: linkF fuel rest
      | none => '[' :: linkF fuel rest
    else c :: linkF fuel rest

/-- `re.sub(r'\n{3,}', '\n\n', _)` drops every newline beyond the second
of a run, i.e. every newline whose two predecessors are newlines.  The
scanner carries the two previously seen characters; dropping a newline
leaves that pair at `('\n', '\n')`, so the pair always equals the last
two emitted characters. -/
def collapseNL : Char → Char → List Char → List Char
  | _, _, [] => []
  | p2, p1, c :: rest =>
    if p2 = '\n' ∧ p1 = '\n' ∧ c = '\n' then collapseNL p1 c rest
    else c :: collapseNL p1 c rest

/-- Wrapper for the newline-collapse rewrite, seeded with non-newline
sentinels. -/
def collapseNewlines (l : List Char) : List Char := collapseNL 'x' 'x' l

/-- Left part of `str.strip()`. -/
def lstrip (l : List Char) : List Char := l.dropWhile isSpaceB

/-- Right part of `str.strip()`. -/
def rstrip (l : List Char) : List Char := (l.reverse.dropWhile isSpaceB).reverse

/-- `str.strip()`. -/
def stripChars (l : List Char) : List Char := rstrip (lstrip l)

/-- `re.sub(r'\*\*(.*?)\*\*', r'\1', _)`. -/
def subBold (l : List Char) : List Char := sub2F '*' l.length l

/-- `re.sub(r'\*(.*?)\*', r'\1', _)`. -/
def subStar (l : List Char) : List Char := sub1F '*' l.length l

/-- `re.sub(r'_(.*?)_', r'\1', _)`. -/
def subUnder (l : List Char) : List Char := sub1F '_' l.length l

/-- `re.sub(r'__(.*?)__', r'\1', _)`. -/
def subUnder2 (l : List Char) : List Char := sub2F '_' l.length l

/-- Removal of fenced code blocks. -/
def subFences (l : List Char) : List Char := fenF l.length l

/-- Unwrapping of inline code spans. -/
def subTicks (l : List Char) : List Char := tickF l.length l

/-- Unwrapping of markdown links. -/
def subLinks (l : List Char) : List Char := linkF l.length l

/-- `clean_response` from `bot.py`: the guard returns falsy input
unchanged, then the rewrites run in source order (bold, italic star,
italic underscore, bold underscore, headers, fenced blocks, inline code,
links, newline collapse, strip). -/
def clean_response (t : List Char) : List Char :=
  if t = [] then t
  else
    stripChars (collapseNewlines (subLinks (subTicks (subFences
      (subHeaders (subUnder2 (subUnder (subStar (subBold t)))))))))

/-- `clean_response` including the `None` case of the Python guard
(`if not text: return text`). -/
def clean_responseOpt : Option (List Char) → Option (List Char)
  | none => none
  | some t => some (clean_response t)

/-- One entry of the `history` field of the request body. -/
structure HistEntry where
  sender : List Char
  text : List Char
  deriving DecidableEq

/-- Message roles of the outbound model payload. -/
inductive Role
  | system
  | user
  | assistant
  deriving DecidableEq

/-- One message of the outbound model payload. -/
structure Msg where
  role : Role
  content : List Char
  deriving DecidableEq

/-- The parsed `/api/chat` request body; absent fields are the defaults
taken by `data.get(..)`, i.e. the empty string and the empty history. -/
structure ChatRequest where
  message : List Char
  document_text : List Char
  history : List HistEntry
  horse_age : List Char
  horse_breed : List Char
  activity_level : List Char
  deriving DecidableEq

/-- The fixed system instruction `SYSTEM_PROMPT` of `bot.py`. -/
def SYSTEM_PROMPT : String := String.intercalate ("\n") ([
  "You are an assistive AI that helps interpret equine health records in plain language. You do not diagnose, prescribe, predict, or give medical advice. You explain insights carefully and defer when data is insufficient.",
  "",
  "Your primary role is to help horse owners and barn managers understand technical veterinary reports and blood work documents. You convert medical jargon into plain language, highlight notable patterns already present in the document, and explain why something was flagged.",
  "",
  "CRITICAL CONSTRAINTS - YOU MUST NEVER:",
  "- Provide diagnosis or suggest what condition a horse might have",
  "- Suggest treatments, prescriptions, or feeding advice",
  "- Provide health scores, readiness scores, or performance predictions",
  "- Predict injuries or future health issues",
  "- Compare horses to each other",
  "- Express confidence beyond what the data supports",
  "- Make inferences beyond what is clearly present in the document",
  "",
  "When information is missing or unclear, you must say: \"The available data isn't sufficient to draw a clear conclusion.\"",
  "",
  "OUTPUT STRUCTURE (MUST FOLLOW THIS EXACT ORDER):",
  "",
  "A. Plain-Language Summary",
  "Purpose: Help a non-technical user understand the document quickly.",
  "- Provide 5-7 short bullet points",
  "- Translate medical or veterinary terms into simple language",
  "- Reflect only what is present in the document",
  "- Example: \"This report shows markers related to muscle activity that are higher than average.\"",
  "- Example: \"Hydration-related values appear lower during periods of intense activity.\"",
  "",
  "B. Notable Patterns or Signals",
  "Purpose: Surface repetition or trends visible within the document.",
  "- Provide 3-5 bullets",
  "- Only patterns clearly present in the data",
  "- No speculation, no inference beyond the record",
  "- Example: \"Repeated elevation of the same marker across multiple tests\"",
  "- Example: \"Values changing during competition season vs rest periods\"",
  "",
  "C. Explainability: \"Why this was mentioned\"",
  "Purpose: Build trust by showing reasoning.",
  "- Tie each insight back to:",
  "  - A section of the document",
  "  - A specific repeated value or note",
  "- No external links required",
  "- Example: \"This was mentioned due to elevated CK levels noted in Sections 2 and 4 of the report.\"",
  "",
  "D. Mandatory Disclaimer (always include at the end)",
  "\"This summary is assistive and informational only. It does not provide medical advice, diagnosis, or treatment recommendations.\"",
  "",
  "TONE AND STYLE:",
  "- Assistive and calm",
  "- Conservative language",
  "- No medical authority claims",
  "- Clear uncertainty handling",
  "- Professional but approachable",
  "- Structured and organized",
  "- No hype language or marketing speak",
  "",
  "When processing a health record:",
  "1. If optional context is provided (horse age, breed, activity level), you may use it for context but do not make assumptions beyond the document",
  "2. Focus on translating technical terms and highlighting what stands out",
  "3. Always explain why something was mentioned",
  "4. When in doubt, state that more information is needed"])

/-- The `metadata_parts` list: one labeled fragment per non-empty
metadata field. -/
def metadataParts (r : ChatRequest) : List (List Char) :=
  (if r.horse_age ≠ [] then [("Horse Age: ".data) ++ r.horse_age] else [])
    ++ (if r.horse_breed ≠ [] then [("Breed: ".data) ++ r.horse_breed] else [])
    ++ (if r.activity_level ≠ [] then [("Activity Level: ".data) ++ r.activity_level] else [])

/-- The single labeled horse-information line appended to `context_parts`. -/
def horseInfoLine (r : ChatRequest) : List Char :=
  ("HORSE INFORMATION:\n".data) ++ List.intercalate (", ".data) (metadataParts r)
    ++ ("\n".data)

/-- The contribution of the metadata block to `context_parts`: present
exactly under the two nested guards of the source (some metadata field
non-empty, and `metadata_parts` non-empty). -/
def metaPart (r : ChatRequest) : List (List Char) :=
  if (r.horse_age ≠ [] ∨ r.horse_breed ≠ [] ∨ r.activity_level ≠ [])
      ∧ metadataParts r ≠ [] then
    [horseInfoLine r]
  else []

/-- The document block appended to `context_parts` when `document_text`
is non-empty. -/
def docLine (r : ChatRequest) : List Char :=
  ("HEALTH RECORD DOCUMENT:\n".data) ++ r.document_text

/-- The contribution of the document block to `context_parts`. -/
def docPart (r : ChatRequest) : List (List Char) :=
  if r.document_text ≠ [] then [docLine r] else []

/-- `context_parts` after both conditional appends. -/
def contextParts (r : ChatRequest) : List (List Char) :=
  metaPart r ++ docPart r

/-- `user_content` before the safety check: the blank-line join of the
context blocks, with the user question appended in one of its two
phrasings when a message is present, or the bare message when there are
no context blocks. -/
def composedBase (r : ChatRequest) : List Char :=
  if contextParts r ≠ [] then
    if r.message ≠ [] then
      if r.document_text ≠ [] ∧ r.message ≠ [] then
        List.intercalate ("\n\n".data) (contextParts r)
          ++ ("\n\nUSER QUESTION (about the above document): ".data) ++ r.message
      else
        List.intercalate ("\n\n".data) (contextParts r)
          ++ ("\n\nUSER QUESTION: ".data) ++ r.message
    else List.intercalate ("\n\n".data) (contextParts r)
  else r.message

/-- Decidable prefix test used by the substring check. -/
def isPre : List Char → List Char → Bool
  | [], _ => true
  | _ :: _, [] => false
  | c :: cs, d :: ds => (c == d) && isPre cs ds

/-- Python's `needle in haystack` substring containment. -/
def containsSub (needle : List Char) : List Char → Bool
  | [] => isPre needle []
  | d :: ds => isPre needle (d :: ds) || containsSub needle ds

/-- `user_content` after the safety check of the source: when the
document text is not literally contained, the document block is
prepended. -/
def userContent (r : ChatRequest) : List Char :=
  if r.document_text ≠ [] ∧ containsSub r.document_text (composedBase r) = false then
    ("HEALTH RECORD DOCUMENT:\n".data) ++ r.document_text ++ ("\n\n".data)
      ++ composedBase r
  else composedBase r

/-- One iteration of the history loop: a `user` or `assistant` entry is
appended with the corresponding role, anything else is skipped. -/
def histStep (acc : List Msg) (e : HistEntry) : List Msg :=
  if e.sender = ("user".data) then acc ++ [⟨Role.user, e.text⟩]
  else if e.sender = ("assistant".data) then acc ++ [⟨Role.assistant, e.text⟩]
  else acc

/-- The full outbound message list: the system prompt, the translation of
the last 10 history entries, then the final user message. -/
def chatMessages (r : ChatRequest) : List Msg :=
  ((r.history.drop (r.history.length - 10)).foldl histStep
      [⟨Role.system, SYSTEM_PROMPT.data⟩])
    ++ [⟨Role.user, userContent r⟩]

/-- Outcome of the handler up to the external model call. -/
inductive ChatOutcome
  | badRequest (error : List Char)
  | callModel (messages : List Msg)
  deriving DecidableEq

/-- The `/api/chat` handler up to the external model call: the 400
rejection when both `message` and `document_text` are falsy, otherwise
the assembled message list handed to the model client. -/
def chat (r : ChatRequest) : ChatOutcome :=
  if r.message = [] ∧ r.document_text = [] then
    ChatOutcome.badRequest ("Either message or document_text is required".data)
  else ChatOutcome.callModel (chatMessages r)

/-- Characterisation predicate for history entries that survive the
translation. -/
def keepEntry (e : HistEntry) : Bool :=
  (e.sender == ("user".data)) || (e.sender == ("assistant".data))

/-- Role mapping of a surviving history entry. -/
def convEntry (e : HistEntry) : Msg :=
  if e.sender = ("user".data) then ⟨Role.user, e.text⟩ else ⟨Role.assistant, e.text⟩

/-- The delimiter characters of the sanitizer rewrites. -/
def isDelim (c : Char) : Bool :=
  (c == '*') || (c == '_') || (c == '#') || (c == tick) || (c == '[')

/-- A string has three consecutive newlines somewhere. -/
def hasTripleNL : List Char → Bool
  | c1 :: c2 :: c3 :: rest =>
    decide (c1 = '\n' ∧ c2 = '\n' ∧ c3 = '\n') || hasTripleNL (c2 :: c3 :: rest)
  | _ => false

theorem isPre_iff (n : List Char) : ∀ l, isPre n l = true ↔ n <+: l := by
  induction n with
  | nil => intro l; exact ⟨fun _ => ⟨l, rfl⟩, fun _ => rfl⟩
  | cons c cs ih =>
    intro l
    cases l with
    | nil =>
      simp only [isPre, List.IsPrefix]
      constructor
      · intro h; exact absurd h (by simp)
      · rintro ⟨t, ht⟩; exact absurd ht (by simp)
    | cons d ds =>
      simp only [isPre, Bool.and_eq_true, beq_iff_eq, ih ds]
      constructor
      · rintro ⟨rfl, t, rfl⟩; exact ⟨t, rfl⟩
      · rintro ⟨t, ht⟩
        rw [List.cons_append] at ht
        injection ht with h1 h2
        exact ⟨h1, t, h2⟩

theorem containsSub_iff (n : List Char) : ∀ l, containsSub n l = true ↔ n <:+: l := by
  intro l
  induction l with
  | nil =>
    simp only [containsSub, isPre_iff]
    constructor
    · rintro ⟨t, ht⟩; exact ⟨[], t, ht⟩
    · rintro ⟨s, t, hst⟩
      obtain ⟨hs1, hs2⟩ := List.append_eq_nil.mp hst
      obtain ⟨hs0, hn⟩ := List.append_eq_nil.mp hs1
      exact ⟨[], by simp [hn]⟩
  | cons d ds ih =>
    simp only [containsSub, Bool.or_eq_true, isPre_iff, ih]
    constructor
    · rintro (⟨t, ht⟩ | ⟨s, t, hst⟩)
      · exact ⟨[], t, ht⟩
      · exact ⟨d :: s, t, by rw [List.cons_append, List.cons_append, hst]⟩
    · rintro ⟨s, t, hst⟩
      cases s with
      | nil => exact Or.inl ⟨t, by simpa using hst⟩
      | cons a s2 =>
        right
        rw [List.cons_append, List.cons_append] at hst
        injection hst with h1 h2
        exact ⟨s2, t, by simpa using h2⟩

theorem hasTripleNL_iff : ∀ l, hasTripleNL l = true ↔ (['\n', '\n', '\n'] : List Char) <:+: l := by
  intro l
  induction l with
  | nil =>
    simp only [hasTripleNL]
    constructor
    · intro h; exact absurd h (by simp)
    · rintro ⟨s, t, hst⟩
      have := congrArg List.length hst
      simp at this
  | cons c1 l1 ih =>
    cases l1 with
    | nil =>
      simp only [hasTripleNL]
      constructor
      · intro h; exact absurd h (by simp)
      · rintro ⟨s, t, hst⟩
        have := congrArg List.length hst
        simp at this
        omega
    | cons c2 l2 =>
      cases l2 with
      | nil =>
        simp only [hasTripleNL]
        constructor
        · intro h; exact absurd h (by simp)
        · rintro ⟨s, t, hst⟩
          have := congrArg List.length hst
          simp at this
          omega
      | cons c3 rest =>
        simp only [hasTripleNL, Bool.or_eq_true, decide_eq_true_eq, ih]
        constructor
        · rintro (⟨rfl, rfl, rfl⟩ | ⟨s, t, hst⟩)
          · exact ⟨[], rest, by simp⟩
          · exact ⟨c1 :: s, t, by rw [List.cons_append, List.cons_append, hst]⟩
        · rintro ⟨s, t, hst⟩
          cases s with
          | nil =>
            simp only [List.nil_append, List.cons_append] at hst
            injection hst with h1 h2
            injection h2 with h2 h3
            injection h3 with h3 h4
            exact Or.inl ⟨h1.symm, h2.symm, h3.symm⟩
          | cons a s2 =>
            right
            rw [List.cons_append, List.cons_append] at hst
            injection hst with h1 h2
            exact ⟨s2, t, by simpa using h2⟩

theorem hasTripleNL_tail (a : Char) (l : List Char)
    (h : hasTripleNL (a :: l) = false) : hasTripleNL l = false := by
  cases l with
  | nil => simp [hasTripleNL]
  | cons b l1 =>
    cases l1 with
    | nil => simp [hasTripleNL]
    | cons c l2 =>
      simp only [hasTripleNL, Bool.or_eq_false_iff] at h
      exact h.2

theorem hasTripleNL_cons_ne (a : Char) (l : List Char) (ha : a ≠ '\n') :
    hasTripleNL (a :: l) = hasTripleNL l := by
  cases l with
  | nil => simp [hasTripleNL]
  | cons b l1 =>
    cases l1 with
    | nil => simp [hasTripleNL]
    | cons c l2 =>
      simp only [hasTripleNL]
      have : decide (a = '\n' ∧ b = '\n' ∧ c = '\n') = false := by
        simp [ha]
      rw [this, Bool.false_or]

theorem collapseNL_noTriple : ∀ (l : List Char) (p2 p1 : Char),
    hasTripleNL (p2 :: p1 :: collapseNL p2 p1 l) = false := by
  intro l
  induction l with
  | nil => intro p2 p1; simp [collapseNL, hasTripleNL]
  | cons c rest ih =>
    intro p2 p1
    by_cases h : p2 = '\n' ∧ p1 = '\n' ∧ c = '\n'
    · obtain ⟨h2, h1, hc⟩ := h
      subst h2; subst h1; subst hc
      rw [collapseNL, if_pos ⟨rfl, rfl, rfl⟩]
      exact ih '\n' '\n'
    · rw [collapseNL, if_neg h]
      simp only [hasTripleNL, Bool.or_eq_false_iff]
      exact ⟨by simp [h], ih p1 c⟩

theorem collapseNewlines_noTriple (l : List Char) :
    hasTripleNL (collapseNewlines l) = false := by
  have h := collapseNL_noTriple l 'x' 'x'
  exact hasTripleNL_tail _ _ (hasTripleNL_tail _ _ h)

theorem collapseNL_id : ∀ (l : List Char) (p2 p1 : Char),
    hasTripleNL (p2 :: p1 :: l) = false → collapseNL p2 p1 l = l := by
  intro l
  induction l with
  | nil => intro p2 p1 _; rfl
  | cons c rest ih =>
    intro p2 p1 h
    simp only [hasTripleNL, Bool.or_eq_false_iff, decide_eq_false_iff_not] at h
    rw [collapseNL, if_neg h.1]
    rw [ih p1 c h.2]

theorem collapseNewlines_id (l : List Char) (h : hasTripleNL l = false) :
    collapseNewlines l = l := by
  apply collapseNL_id
  rw [hasTripleNL_cons_ne 'x' _ (by decide), hasTripleNL_cons_ne 'x' _ (by decide)]
  exact h

theorem dropWhile_head_not (p : Char → Bool) : ∀ (l : List Char) (c : Char),
    (List.dropWhile p l).head? = some c → p c = false := by
  intro l
  induction l with
  | nil => intro c h; simp [List.dropWhile] at h
  | cons a rest ih =>
    intro c h
    by_cases hp : p a = true
    · rw [List.dropWhile_cons_of_pos hp] at h
      exact ih c h
    · rw [List.dropWhile_cons_of_neg hp] at h
      simp only [List.head?_cons, Option.some.injEq] at h
      rw [← h]
      exact Bool.eq_false_iff.mpr hp

theorem dropWhile_idem (p : Char → Bool) : ∀ l : List Char,
    List.dropWhile p (List.dropWhile p l) = List.dropWhile p l := by
  intro l
  induction l with
  | nil => rfl
  | cons a rest ih =>
    by_cases hp : p a = true
    · rw [List.dropWhile_cons_of_pos hp]; exact ih
    · rw [List.dropWhile_cons_of_neg hp, List.dropWhile_cons_of_neg hp]

theorem rstrip_idem (l : List Char) : rstrip (rstrip l) = rstrip l := by
  unfold rstrip
  rw [List.reverse_reverse, dropWhile_idem]

theorem rstrip_pre (l : List Char) : ∃ t, rstrip l ++ t = l := by
  obtain ⟨s, hs⟩ := List.dropWhile_suffix (l := l.reverse) isSpaceB
  refine ⟨s.reverse, ?_⟩
  unfold rstrip
  rw [← List.reverse_append, hs, List.reverse_reverse]

theorem pre_head (y x : List Char) (h : ∃ t, y ++ t = x) (hy : y ≠ []) :
    x.head? = y.head? := by
  obtain ⟨t, ht⟩ := h
  cases y with
  | nil => exact absurd rfl hy
  | cons a ys => rw [← ht]; simp

theorem lstrip_rstrip_lstrip (l : List Char) :
    lstrip (rstrip (lstrip l)) = rstrip (lstrip l) := by
  cases hu : rstrip (lstrip l) with
  | nil => simp [lstrip]
  | cons a ys =>
    have hhead : (lstrip l).head? = some a := by
      rw [pre_head (rstrip (lstrip l)) (lstrip l) (rstrip_pre _) (by rw [hu]; simp), hu]
      simp
    have ha : isSpaceB a = false := dropWhile_head_not isSpaceB l a hhead
    show List.dropWhile isSpaceB (a :: ys) = a :: ys
    rw [List.dropWhile_cons_of_neg (by rw [ha]; simp)]

theorem stripChars_idem (l : List Char) : stripChars (stripChars l) = stripChars l := by
  unfold stripChars
  rw [lstrip_rstrip_lstrip, rstrip_idem]

theorem stripChars_head (l : List Char) (c : Char)
    (h : (stripChars l).head? = some c) : isSpaceB c = false := by
  unfold stripChars at h
  cases hu : rstrip (lstrip l) with
  | nil => rw [hu] at h; simp at h
  | cons a ys =>
    rw [hu] at h
    simp only [List.head?_cons, Option.some.injEq] at h
    have hhead : (lstrip l).head? = some a := by
      rw [pre_head (rstrip (lstrip l)) (lstrip l) (rstrip_pre _) (by rw [hu]; simp), hu]
      simp
    rw [← h]
    exact dropWhile_head_not isSpaceB l a hhead

theorem stripChars_last (l : List Char) (c : Char)
    (h : (stripChars l).getLast? = some c) : isSpaceB c = false := by
  unfold stripChars rstrip at h
  rw [List.getLast?_reverse] at h
  exact dropWhile_head_not isSpaceB (lstrip l).reverse c h

theorem stripChars_inf (l : List Char) : ∃ s t, s ++ stripChars l ++ t = l := by
  obtain ⟨s, hs⟩ := List.dropWhile_suffix (l := l) isSpaceB
  obtain ⟨t, ht⟩ := rstrip_pre (lstrip l)
  refine ⟨s, t, ?_⟩
  unfold stripChars
  rw [List.append_assoc, ht]
  exact hs

theorem stripChars_noTriple (l : List Char) (h : hasTripleNL l = false) :
    hasTripleNL (stripChars l) = false := by
  cases hb : hasTripleNL (stripChars l) with
  | false => rfl
  | true =>
    exfalso
    obtain ⟨s, t, hst⟩ := (hasTripleNL_iff _).mp hb
    obtain ⟨s0, t0, h0⟩ := stripChars_inf l
    have : hasTripleNL l = true := by
      refine (hasTripleNL_iff _).mpr ⟨s0 ++ s, t ++ t0, ?_⟩
      rw [← h0, ← hst]
      simp [List.append_assoc]
    rw [this] at h
    exact absurd h (by simp)

theorem sub1F_id (d : Char) : ∀ (f : Nat) (l : List Char), d ∉ l → sub1F d f l = l := by
  intro f
  induction f with
  | zero => intro l _; rfl
  | succ f ih =>
    intro l h
    cases l with
    | nil => rfl
    | cons c rest =>
      have hc : ¬ c = d := by intro e; exact h (by simp [e])
      rw [sub1F, if_neg hc, ih rest (fun m => h (List.mem_cons_of_mem _ m))]

theorem sub2F_id (d : Char) : ∀ (f : Nat) (l : List Char), d ∉ l → sub2F d f l = l := by
  intro f
  induction f with
  | zero => intro l _; rfl
  | succ f ih =>
    intro l h
    match l with
    | [] => rfl
    | [c] => rfl
    | c1 :: c2 :: rest =>
      have hc : ¬ (c1 = d ∧ c2 = d) := by
        rintro ⟨e, _⟩; exact h (by simp [e])
      rw [sub2F, if_neg hc, ih (c2 :: rest) (fun m => h (List.mem_cons_of_mem _ m))]

theorem hdrF_id : ∀ (f : Nat) (b : Bool) (l : List Char), '#' ∉ l → hdrF f b l = l := by
  intro f
  induction f with
  | zero => intro b l _; rfl
  | succ f ih =>
    intro b l h
    cases l with
    | nil => rfl
    | cons c rest =>
      have hc : ¬ (b = true ∧ c = '#') := by
        rintro ⟨_, e⟩; exact h (by simp [e])
      rw [hdrF, if_neg hc, ih _ rest (fun m => h (List.mem_cons_of_mem _ m))]

theorem fenF_id : ∀ (f : Nat) (l : List Char), tick ∉ l → fenF f l = l := by
  intro f
  induction f with
  | zero => intro l _; rfl
  | succ f ih =>
    intro l h
    match l with
    | [] => rfl
    | [c] => rfl
    | [c1, c2] => rfl
    | c1 :: c2 :: c3 :: rest =>
      have hc : ¬ (c1 = tick ∧ c2 = tick ∧ c3 = tick) := by
        rintro ⟨e, _⟩; exact h (by simp [← e])
      rw [fenF, if_neg hc, ih (c2 :: c3 :: rest) (fun m => h (List.mem_cons_of_mem _ m))]

theorem tickF_id : ∀ (f : Nat) (l : List Char), tick ∉ l → tickF f l = l := by
  intro f
  induction f with
  | zero => intro l _; rfl
  | succ f ih =>
    intro l h
    cases l with
    | nil => rfl
    | cons c rest =>
      have hc : ¬ c = tick := by intro e; exact h (by simp [← e])
      have htail := ih rest (fun m => h (List.mem_cons_of_mem _ m))
      simp [tickF, hc, htail]

theorem linkF_id : ∀ (f : Nat) (l : List Char), '[' ∉ l → linkF f l = l := by
  intro f
  induction f with
  | zero => intro l _; rfl
  | succ f ih =>
    intro l h
    cases l with
    | nil => rfl
    | cons c rest =>
      have hc : ¬ c = '[' := by intro e; exact h (by simp [e])
      rw [linkF, if_neg hc, ih rest (fun m => h (List.mem_cons_of_mem _ m))]

theorem foldl_histStep : ∀ (h : List HistEntry) (acc : List Msg),
    h.foldl histStep acc = acc ++ (h.filter keepEntry).map convEntry := by
  intro h
  induction h with
  | nil => intro acc; simp
  | cons e t ih =>
    intro acc
    rw [List.foldl_cons, ih]
    by_cases h1 : e.sender = ("user".data)
    · have hk : keepEntry e = true := by simp [keepEntry, h1]
      rw [List.filter_cons_of_pos hk, List.map_cons]
      rw [show convEntry e = ⟨Role.user, e.text⟩ from by simp [convEntry, h1]]
      rw [show histStep acc e = acc ++ [⟨Role.user, e.text⟩] from by simp [histStep, h1]]
      simp
    · by_cases h2 : e.sender = ("assistant".data)
      · have hk : keepEntry e = true := by simp [keepEntry, h2]
        rw [List.filter_cons_of_pos hk, List.map_cons]
        rw [show convEntry e = ⟨Role.assistant, e.text⟩ from by simp [convEntry, h1]]
        rw [show histStep acc e = acc ++ [⟨Role.assistant, e.text⟩] from by
          simp [histStep, h1, h2]]
        simp
      · have hk : keepEntry e = false := by simp [keepEntry, h1, h2]
        rw [List.filter_cons_of_neg (by simp [hk])]
        rw [show histStep acc e = acc from by simp [histStep, h1, h2]]

theorem intercalate_one (s a : List Char) : List.intercalate s [a] = a := by
  simp [List.intercalate]

theorem intercalate_two (s a b : List Char) :
    List.intercalate s [a, b] = a ++ s ++ b := by
  simp [List.intercalate, List.intersperse]

/-- Request with every field empty or absent. -/
def reqEmpty : ChatRequest := ⟨[], [], [], [], [], []⟩

/-- Request carrying only a document and a horse age, the end-to-end
scenario of the specification. -/
def reqDoc : ChatRequest :=
  ⟨[], ("CK levels elevated in Section 2".data), [], ("8".data), [], []⟩

/-- Request carrying a document, a question and a breed. -/
def reqDQ : ChatRequest :=
  ⟨("what?".data), ("doc text".data), [], [], ("Arab".data), []⟩

/-- Request carrying only a question. -/
def reqQ : ChatRequest := ⟨("hi".data), [], [], [], [], []⟩

/-- Request whose document text is a single space. -/
def reqWS : ChatRequest := ⟨[], [' '], [], [], [], []⟩

/-- Eleven identical user history entries. -/
def hist11 : List HistEntry := List.replicate 11 ⟨("user".data), ("m".data)⟩

/-- Request carrying a question and eleven history entries. -/
def reqHist : ChatRequest := ⟨("q".data), [], hist11, [], [], []⟩

/-- Claim C1: for every request with non-empty `document_text`, the final
user message appended to the message list is the composed user content,
and that content contains `document_text` verbatim as a substring; the
safety check prepends the document block whenever the assembled content
would not contain it, so the document is never silently dropped. -/
theorem spec_C1 (r : ChatRequest) (hdoc : r.document_text ≠ []) :
    (chatMessages r).getLast? = some ⟨Role.user, userContent r⟩
      ∧ r.document_text <:+: userContent r := by
  constructor
  · unfold chatMessages
    exact List.getLast?_concat _
  · unfold userContent
    by_cases hc : r.document_text ≠ [] ∧ containsSub r.document_text (composedBase r) = false
    · rw [if_pos hc]
      exact ⟨("HEALTH RECORD DOCUMENT:\n".data), ("\n\n".data) ++ composedBase r, by
        simp [List.append_assoc]⟩
    · rw [if_neg hc]
      have ht : containsSub r.document_text (composedBase r) = true := by
        cases hcs : containsSub r.document_text (composedBase r) with
        | true => rfl
        | false => exact absurd ⟨hdoc, hcs⟩ hc
      exact (containsSub_iff _ _).mp ht

theorem spec_C1_witness :
    (chatMessages reqDoc).getLast? = some ⟨Role.user, userContent reqDoc⟩
      ∧ reqDoc.document_text <:+: userContent reqDoc :=
  spec_C1 reqDoc (by decide)

/-- Claim C2: the handler answers the fixed 400 error exactly when both
`message` and `document_text` are empty, and no other error body is ever
produced by the validation. -/
theorem spec_C2 (r : ChatRequest) :
    (chat r = ChatOutcome.badRequest ("Either message or document_text is required".data)
        ↔ (r.message = [] ∧ r.document_text = []))
      ∧ (∀ e, chat r = ChatOutcome.badRequest e
          → e = ("Either message or document_text is required".data)) := by
  unfold chat
  by_cases h : r.message = [] ∧ r.document_text = []
  · rw [if_pos h]
    refine ⟨⟨fun _ => h, fun _ => rfl⟩, ?_⟩
    intro e he
    injection he with he
    exact he.symm
  · rw [if_neg h]
    refine ⟨⟨fun he => absurd he (by simp), fun hc => absurd hc h⟩, ?_⟩
    intro e he
    exact absurd he (by simp)

theorem spec_C2_witness :
    chat reqEmpty
      = ChatOutcome.badRequest ("Either message or document_text is required".data) :=
  (spec_C2 reqEmpty).1.mpr ⟨rfl, rfl⟩

/-- Claim C3: the translated conversation entries are exactly the
`user`/`assistant` entries of the last 10 history entries, in original
order and with the corresponding roles, placed between the system prompt
and the final user message; for more than 10 entries only the last 10 are
considered. -/
theorem spec_C3 (r : ChatRequest) :
    chatMessages r
        = ⟨Role.system, SYSTEM_PROMPT.data⟩
            :: (((r.history.drop (r.history.length - 10)).filter keepEntry).map convEntry
              ++ [⟨Role.user, userContent r⟩])
      ∧ (r.history.length > 10 → (r.history.drop (r.history.length - 10)).length = 10) := by
  constructor
  · unfold chatMessages
    rw [foldl_histStep]
    simp
  · intro h
    rw [List.length_drop]
    omega

theorem spec_C3_witness :
    (reqHist.history.drop (reqHist.history.length - 10)).length = 10 :=
  (spec_C3 reqHist).2 (by decide)

/-- Claim C4: the sanitizer maps each of the specification's example
inputs to the stated outputs. -/
theorem spec_C4 :
    clean_response ("**Hello** _world_".data) = ("Hello world".data)
      ∧ clean_response ("# Title\n\nSome `code` here".data) = ("Title\n\nSome code here".data)
      ∧ clean_response ("```\nblock\n```\nAfter".data) = ("After".data)
      ∧ clean_response ("[link](http://x.com) text".data) = ("link text".data) :=
  ⟨by decide, by decide, by decide, by decide⟩

/-- Claim C5: the sanitizer is idempotent on every input whose sanitized
form is free of leftover delimiter characters (the "sanitizer artifact"
carve-out of the specification): a second application changes nothing. -/
theorem spec_C5 (l : List Char)
    (h : ∀ c ∈ clean_response l, isDelim c = false) :
    clean_response (clean_response l) = clean_response l := by
  have hform : clean_response l
      = stripChars (collapseNewlines (subLinks (subTicks (subFences (subHeaders
          (subUnder2 (subUnder (subStar (subBold l))))))))) := by
    by_cases hl : l = []
    · subst hl; rfl
    · rw [clean_response, if_neg hl]
  set y := clean_response l with hy
  by_cases hy0 : y = []
  · rw [hy0]
    simp [clean_response]
  · have hstar : '*' ∉ y := fun m => by
      have := h '*' m; simp [isDelim] at this
    have hund : '_' ∉ y := fun m => by
      have := h '_' m; simp [isDelim] at this
    have hhash : '#' ∉ y := fun m => by
      have := h '#' m; simp [isDelim] at this
    have htick : tick ∉ y := fun m => by
      have := h tick m; simp [isDelim] at this
    have hbr : '[' ∉ y := fun m => by
      have := h '[' m; simp [isDelim] at this
    have hnt : hasTripleNL y = false := by
      rw [hform]
      exact stripChars_noTriple _ (collapseNewlines_noTriple _)
    rw [clean_response, if_neg hy0]
    simp only [subBold, subStar, subUnder, subUnder2, subHeaders, subFences, subTicks,
      subLinks]
    rw [sub2F_id '*' _ _ hstar, sub1F_id '*' _ _ hstar, sub1F_id '_' _ _ hund,
      sub2F_id '_' _ _ hund, hdrF_id _ _ _ hhash, fenF_id _ _ htick, tickF_id _ _ htick,
      linkF_id _ _ hbr, collapseNewlines_id _ hnt]
    rw [hform]
    exact stripChars_idem _

theorem spec_C5_witness :
    clean_response (clean_response ("**Hello** _world_".data))
      = clean_response ("**Hello** _world_".data) :=
  spec_C5 _ (by decide)

/-- Claim C6: the question suffix of the composed user content follows
the three cases: with both document and question the content ends with
the about-the-document phrasing followed by the question; with only a
question (no document, no metadata) the content is the question itself;
with only a document (no question) the content is exactly the joined
context blocks, with no question suffix. -/
theorem spec_C6 (r : ChatRequest) :
    (r.document_text ≠ [] → r.message ≠ [] →
        (("USER QUESTION (about the above document): ".data) ++ r.message)
          <:+ userContent r)
      ∧ (r.document_text = [] → r.horse_age = [] → r.horse_breed = [] →
          r.activity_level = [] → userContent r = r.message)
      ∧ (r.document_text ≠ [] → r.message = [] →
          userContent r = List.intercalate ("\n\n".data) (contextParts r)) := by
  refine ⟨?_, ?_, ?_⟩
  · intro hdoc hmsg
    have hctx : contextParts r ≠ [] := by
      simp [contextParts, docPart, hdoc, List.append_eq_nil]
    have hbase : composedBase r
        = List.intercalate ("\n\n".data) (contextParts r)
            ++ ("\n\nUSER QUESTION (about the above document): ".data) ++ r.message := by
      rw [composedBase, if_pos hctx, if_pos hmsg, if_pos ⟨hdoc, hmsg⟩]
    have hsuf : (("USER QUESTION (about the above document): ".data) ++ r.message)
        <:+ composedBase r := by
      rw [hbase]
      refine ⟨List.intercalate ("\n\n".data) (contextParts r) ++ ['\n', '\n'], ?_⟩
      have hsplit : ("\n\nUSER QUESTION (about the above document): ".data)
          = ['\n', '\n'] ++ ("USER QUESTION (about the above document): ".data) := by
        decide
      rw [hsplit]
      simp [List.append_assoc]
    unfold userContent
    by_cases hpre : r.document_text ≠ []
        ∧ containsSub r.document_text (composedBase r) = false
    · rw [if_pos hpre]
      obtain ⟨t, ht⟩ := hsuf
      exact ⟨("HEALTH RECORD DOCUMENT:\n".data) ++ r.document_text ++ ("\n\n".data) ++ t,
        by rw [← ht]; simp [List.append_assoc]⟩
    · rw [if_neg hpre]
      exact hsuf
  · intro hdoc ha hb hact
    simp [userContent, composedBase, contextParts, metaPart, docPart, metadataParts,
      ha, hb, hact, hdoc]
  · intro hdoc hmsg
    have hctx : contextParts r ≠ [] := by
      simp [contextParts, docPart, hdoc, List.append_eq_nil]
    have hbase : composedBase r = List.intercalate ("\n\n".data) (contextParts r) := by
      rw [composedBase, if_pos hctx, if_neg (by simp [hmsg])]
    have hin : containsSub r.document_text (composedBase r) = true := by
      rw [hbase]
      apply (containsSub_iff _ _).mpr
      by_cases hmp : (r.horse_age ≠ [] ∨ r.horse_breed ≠ [] ∨ r.activity_level ≠ [])
          ∧ metadataParts r ≠ []
      · have hctx2 : contextParts r = [horseInfoLine r, docLine r] := by
          simp [contextParts, metaPart, docPart, hmp, hdoc]
        rw [hctx2, intercalate_two]
        exact ⟨horseInfoLine r ++ ("\n\n".data) ++ ("HEALTH RECORD DOCUMENT:\n".data),
          [], by simp [docLine, List.append_assoc]⟩
      · have hctx2 : contextParts r = [docLine r] := by
          simp [contextParts, metaPart, docPart, hmp, hdoc]
        rw [hctx2, intercalate_one]
        exact ⟨("HEALTH RECORD DOCUMENT:\n".data), [], by simp [docLine]⟩
    unfold userContent
    rw [if_neg (by rintro ⟨_, hf⟩; rw [hin] at hf; exact absurd hf (by simp)), hbase]

theorem spec_C6_witness :
    ((("USER QUESTION (about the above document): ".data) ++ reqDQ.message)
        <:+ userContent reqDQ)
      ∧ userContent reqQ = ("hi".data)
      ∧ userContent reqDoc = List.intercalate ("\n\n".data) (contextParts reqDoc) :=
  ⟨(spec_C6 reqDQ).1 (by decide) (by decide),
   (spec_C6 reqQ).2.1 rfl rfl rfl rfl,
   (spec_C6 reqDoc).2.2 (by decide) rfl⟩

/-- Claim C7: the metadata block heads the context blocks exactly when
some metadata field is non-empty (formatted as the single labeled
horse-information line), and on the end-to-end scenario request the
composed user content is the metadata line, a blank line, and the
document block, with no question suffix. -/
theorem spec_C7 (r : ChatRequest) :
    ((r.horse_age ≠ [] ∨ r.horse_breed ≠ [] ∨ r.activity_level ≠ []) →
        contextParts r = horseInfoLine r :: docPart r)
      ∧ ((r.horse_age = [] ∧ r.horse_breed = [] ∧ r.activity_level = []) →
          contextParts r = docPart r)
      ∧ userContent reqDoc
          = ("HORSE INFORMATION:\nHorse Age: 8\n\n\nHEALTH RECORD DOCUMENT:\nCK levels elevated in Section 2".data) := by
  refine ⟨?_, ?_, by decide⟩
  · intro hcond
    have hne : metadataParts r ≠ [] := by
      rcases hcond with h | h | h
      · simp [metadataParts, h]
      · simp [metadataParts, h, List.append_eq_nil]
      · simp [metadataParts, h, List.append_eq_nil]
    rw [contextParts, metaPart, if_pos (And.intro hcond hne)]
    simp
  · rintro ⟨ha, hb, hc⟩
    rw [contextParts, metaPart,
      if_neg (by rintro ⟨h0, _⟩; rcases h0 with h | h | h; exacts [h ha, h hb, h hc])]
    simp

theorem spec_C7_witness :
    contextParts reqDoc = horseInfoLine reqDoc :: docPart reqDoc
      ∧ contextParts reqQ = docPart reqQ :=
  ⟨(spec_C7 reqDoc).1 (Or.inl (by decide)),
   (spec_C7 reqQ).2.1 ⟨rfl, rfl, rfl⟩⟩

/-- Claim C8: for every input the sanitized output has no run of three or
more consecutive newlines and neither leading nor trailing whitespace;
an input with four consecutive newlines comes out with exactly two. -/
theorem spec_C8 (l : List Char) :
    (¬ ((['\n', '\n', '\n'] : List Char) <:+: clean_response l))
      ∧ (∀ c, (clean_response l).head? = some c → isSpaceB c = false)
      ∧ (∀ c, (clean_response l).getLast? = some c → isSpaceB c = false)
      ∧ clean_response ("a\n\n\n\nb ".data) = ("a\n\nb".data) := by
  have hform : clean_response l
      = stripChars (collapseNewlines (subLinks (subTicks (subFences (subHeaders
          (subUnder2 (subUnder (subStar (subBold l))))))))) := by
    by_cases hl : l = []
    · subst hl; rfl
    · rw [clean_response, if_neg hl]
  refine ⟨?_, ?_, ?_, by decide⟩
  · intro hinf
    have h1 : hasTripleNL (clean_response l) = false := by
      rw [hform]
      exact stripChars_noTriple _ (collapseNewlines_noTriple _)
    have h2 : hasTripleNL (clean_response l) = true := (hasTripleNL_iff _).mpr hinf
    rw [h1] at h2
    exact absurd h2 (by simp)
  · intro c hc
    rw [hform] at hc
    exact stripChars_head _ _ hc
  · intro c hc
    rw [hform] at hc
    exact stripChars_last _ _ hc

theorem spec_C8_witness : isSpaceB 'a' = false ∧ isSpaceB 'b' = false :=
  ⟨(spec_C8 ("a\n\n\n\nb ".data)).2.1 'a' (by decide),
   (spec_C8 (" x\n\n\n\nb\t".data)).2.2.1 'b' (by decide)⟩

/-- Claim C9: the sanitizer is a total function: it returns a string for
every input, and on empty or absent input (`None` or the empty string) it
returns its input unchanged. -/
theorem spec_C9 :
    clean_responseOpt none = none
      ∧ clean_responseOpt (some []) = some []
      ∧ (∀ t, ∃ res, clean_responseOpt (some t) = some res)
      ∧ clean_response [] = [] :=
  ⟨rfl, rfl, fun t => ⟨clean_response t, rfl⟩, rfl⟩

/-- Claim C10: validation emptiness is plain string falsiness, not
blank-stripped emptiness: an empty message together with an all-whitespace
non-empty document text passes validation and proceeds to prompt
composition. -/
theorem spec_C10 (r : ChatRequest) (h1 : r.message = [])
    (h2 : r.document_text ≠ []) (h3 : ∀ c ∈ r.document_text, isSpaceB c = true) :
    chat r = ChatOutcome.callModel (chatMessages r) := by
  rw [chat, if_neg (by rintro ⟨_, hd⟩; exact h2 hd)]

theorem spec_C10_witness : chat reqWS = ChatOutcome.callModel (chatMessages reqWS) :=
  spec_C10 reqWS rfl (by decide) (by decide)

end HorseHealth

